import Mathlib

/-!
Verification of the Ramer-Douglas-Peucker polyline simplifier.

The embedding follows `src/lib.rs`: floating-point values are modelled as
real numbers, `Vec<T>` as `List T`, the `HasPoint` trait as a type class,
and the iterative work-list loop as a fuel-indexed recursion where `none`
models a run that has not finished within the given fuel (the public entry
point supplies fuel `2 * length`, which is proved sufficient whenever the
loop terminates at all).
-/

namespace RDP

abbrev Point : Type := ℝ × ℝ

abbrev Line : Type := Point × Point

/-- The `HasPoint` trait: the element type projects to a 2-D coordinate. -/
class HasPoint (T : Type) where
  to_point : T → Point

instance : HasPoint Point :=
  ⟨fun p => p⟩

/-- `distance_point_to_point` from the source: Euclidean distance. -/
noncomputable def distance_point_to_point (x y : Point) : ℝ :=
  let a := y.1 - x.1
  let b := y.2 - x.2
  let result := Real.sqrt (a * a + b * b)
  |result|

/-- `distance_point_to_line` from the source: perpendicular distance from a
point to the infinite line through the two points of `l`, delegating to
`distance_point_to_point` when the line is degenerate. -/
noncomputable def distance_point_to_line (p : Point) (l : Line) : ℝ :=
  if l.1 = l.2 then
    distance_point_to_point p l.1
  else
    let a := l.1.2 - l.2.2
    let b := l.2.1 - l.1.1
    let c := l.1.1 * l.2.2 - l.2.1 * l.1.2
    let result := (a * p.1 + b * p.2 + c) / Real.sqrt (a * a + b * b)
    |result|

variable {T : Type} [HasPoint T]

/-- One iteration of the interior `for i in start_index+1..end_index` scan:
update the running `(max_distance, max_index)` pair with index `i`. -/
noncomputable def scanStep (v : List T) (line : Line) (acc : ℝ × Nat) (i : Nat) :
    ℝ × Nat :=
  match v[i]? with
  | some q =>
    let distance := distance_point_to_line (HasPoint.to_point q) line
    if distance > acc.1 then (distance, i) else acc
  | none => acc

/-- The maximum-deviation scan of the loop body: fold `scanStep` over the
interior indices `start_index+1, ..., end_index-1`, starting from
`(0, start_index)` exactly as the source initialises `max_distance` and
`max_index`. -/
noncomputable def maxScan (v : List T) (line : Line) (start_index end_index : Nat) :
    ℝ × Nat :=
  (List.range' (start_index + 1) (end_index - (start_index + 1))).foldl
    (scanStep v line) (0, start_index)

/-- The `while let Some((start_index, end_index)) = stack.pop()` loop of
`ramer_douglas_peucker`, with an explicit fuel parameter; `none` models a
run that does not finish within `fuel` iterations.  The head of the list is
the top of the stack. -/
noncomputable def rdpLoop (v : List T) (epsilon : ℝ) :
    Nat → List (Nat × Nat) → Int → List T → Option (List T)
  | _, [], _, result => some result
  | 0, _ :: _, _, _ => none
  | fuel + 1, (start_index, end_index) :: stack, last_stack_index, result =>
    match v[start_index]?, v[end_index]? with
    | some vs, some ve =>
      let line : Line := (HasPoint.to_point vs, HasPoint.to_point ve)
      let scan := maxScan v line start_index end_index
      if scan.1 > epsilon then
        rdpLoop v epsilon fuel
          ((start_index, scan.2) :: (scan.2, end_index) :: stack)
          last_stack_index result
      else
        rdpLoop v epsilon fuel stack (end_index : Int)
          ((if last_stack_index ≠ (start_index : Int) then result ++ [vs] else result)
            ++ [ve])
    | _, _ => none

/-- `ramer_douglas_peucker` from the source.  Inputs of length `< 3` are
returned unchanged; otherwise the work-list loop is run starting from the
full range `(0, length - 1)` with `last_stack_index = -1`.  Fuel
`2 * length` is sufficient for every terminating run (proved below). -/
noncomputable def ramer_douglas_peucker (v : List T) (epsilon : ℝ) :
    Option (List T) :=
  if v.length < 3 then some v
  else rdpLoop v epsilon (2 * v.length) [(0, v.length - 1)] (-1) []

/-- Distance of the element at index `i` to `line` (`0` out of bounds);
the value the scan compares at index `i`. -/
noncomputable def distOf (v : List T) (line : Line) (i : Nat) : ℝ :=
  match v[i]? with
  | some q => distance_point_to_line (HasPoint.to_point q) line
  | none => 0

theorem scanStep_eq (v : List T) (line : Line) (acc : ℝ × Nat) (i : Nat)
    (h : 0 ≤ acc.1) :
    scanStep v line acc i =
      if distOf v line i > acc.1 then (distOf v line i, i) else acc := by
  unfold scanStep distOf
  cases v[i]? with
  | none =>
    simp only
    rw [if_neg]
    simp only [not_lt]
    exact h
  | some q => rfl

theorem exists_cons_of_head?_some {α : Type} {l : List α} {a : α}
    (h : l.head? = some a) : ∃ t, l = a :: t := by
  cases l with
  | nil => simp at h
  | cons b t =>
    simp only [List.head?_cons, Option.some.injEq] at h
    exact ⟨t, by rw [h]⟩

theorem mem_range'_iff {s n i : Nat} : i ∈ List.range' s n ↔ s ≤ i ∧ i < s + n := by
  rw [List.mem_range']
  constructor
  · rintro ⟨k, hk, rfl⟩
    omega
  · intro h
    exact ⟨i - s, by omega, by omega⟩

theorem pairwise_lt_range' : ∀ (n s : Nat), (List.range' s n).Pairwise (· < ·)
  | 0, _ => by simp
  | n + 1, s => by
    rw [List.range'_succ]
    exact List.Pairwise.cons
      (fun j hj => Nat.lt_of_succ_le (mem_range'_iff.1 hj).1)
      (pairwise_lt_range' n (s + 1))

/-- Full behaviour of the interior scan fold: the running maximum stays
non-negative and only grows, it bounds every scanned distance, the final
accumulator is either untouched or records a scanned index achieving the
final maximum, and every scanned index to the left of the recorded index
has a strictly smaller distance (first-maximum tie-breaking). -/
theorem scan_foldl_spec (v : List T) (line : Line) :
    ∀ (l : List Nat) (acc : ℝ × Nat),
      0 ≤ acc.1 →
      l.Pairwise (· < ·) →
      (∀ i ∈ l, acc.2 < i) →
      0 ≤ (l.foldl (scanStep v line) acc).1 ∧
      acc.1 ≤ (l.foldl (scanStep v line) acc).1 ∧
      (∀ i ∈ l, distOf v line i ≤ (l.foldl (scanStep v line) acc).1) ∧
      (l.foldl (scanStep v line) acc = acc ∨
        ((l.foldl (scanStep v line) acc).2 ∈ l ∧
          distOf v line (l.foldl (scanStep v line) acc).2 =
            (l.foldl (scanStep v line) acc).1 ∧
          acc.1 < (l.foldl (scanStep v line) acc).1)) ∧
      (∀ i ∈ l, i < (l.foldl (scanStep v line) acc).2 →
        distOf v line i < (l.foldl (scanStep v line) acc).1)
  | [], acc => by
    intro h0 _ _
    refine ⟨h0, le_refl _, by simp, Or.inl rfl, by simp⟩
  | i :: rest, acc => by
    intro h0 hpw hgt
    have hpw' : rest.Pairwise (· < ·) := (List.pairwise_cons.1 hpw).2
    have hi : ∀ j ∈ rest, i < j := (List.pairwise_cons.1 hpw).1
    have hstep := scanStep_eq v line acc i h0
    set acc' := scanStep v line acc i with hacc'
    have hca : acc' = if distOf v line i > acc.1 then (distOf v line i, i) else acc :=
      hstep
    have h0' : 0 ≤ acc'.1 := by
      rw [hca]
      split
      · exact le_of_lt (lt_of_le_of_lt h0 (by assumption))
      · exact h0
    have hle' : acc.1 ≤ acc'.1 := by
      rw [hca]
      split
      · exact le_of_lt (by assumption)
      · exact le_refl _
    have hdi : distOf v line i ≤ acc'.1 := by
      rw [hca]
      split
      · exact le_refl _
      · exact le_of_not_lt (by assumption)
    have hgt' : ∀ j ∈ rest, acc'.2 < j := by
      intro j hj
      rw [hca]
      split
      · exact hi j hj
      · exact hgt j (List.mem_cons_of_mem _ hj)
    have hfold : (i :: rest).foldl (scanStep v line) acc =
        rest.foldl (scanStep v line) acc' := rfl
    obtain ⟨ih0, ihle, ihbound, ihcase, ihleft⟩ :=
      scan_foldl_spec v line rest acc' h0' hpw' hgt'
    rw [hfold]
    refine ⟨ih0, le_trans hle' ihle, ?_, ?_, ?_⟩
    · intro j hj
      rcases List.mem_cons.1 hj with rfl | hj'
      · exact le_trans hdi ihle
      · exact ihbound j hj'
    · rcases ihcase with hres | ⟨hmem, hdist, hlt⟩
      · rw [hres, hca]
        split
        · refine Or.inr ⟨List.mem_cons_self _ _, rfl, by assumption⟩
        · exact Or.inl rfl
      · exact Or.inr ⟨List.mem_cons_of_mem _ hmem, hdist,
          lt_of_le_of_lt hle' hlt⟩
    · intro j hj hjlt
      rcases List.mem_cons.1 hj with rfl | hj'
      · rcases ihcase with hres | ⟨_, _, hlt⟩
        · rw [hres] at hjlt
          rw [hca] at hjlt
          split at hjlt
          · exact absurd hjlt (lt_irrefl _)
          · exact absurd hjlt (not_lt_of_gt (hgt j (List.mem_cons_self _ _)))
        · exact lt_of_le_of_lt hdi hlt
      · exact ihleft j hj' hjlt

/-- Behaviour of `maxScan` on a range `(s, e)`: the reported maximum is
non-negative and bounds every interior distance; either no interior
distance is positive and the accumulator is left at `(0, s)`, or the
recorded index is strictly interior, achieves the maximum, and every
interior index to its left has a strictly smaller distance. -/
theorem maxScan_spec (v : List T) (line : Line) (s e : Nat) :
    0 ≤ (maxScan v line s e).1 ∧
    (∀ i, s < i → i < e → distOf v line i ≤ (maxScan v line s e).1) ∧
    (maxScan v line s e = (0, s) ∨
      (s < (maxScan v line s e).2 ∧ (maxScan v line s e).2 < e ∧
        distOf v line (maxScan v line s e).2 = (maxScan v line s e).1 ∧
        0 < (maxScan v line s e).1)) ∧
    (∀ i, s < i → i < e → i < (maxScan v line s e).2 →
      distOf v line i < (maxScan v line s e).1) := by
  simp only [maxScan]
  have hmem : ∀ i, s < i → i < e → i ∈ List.range' (s + 1) (e - (s + 1)) := by
    intro i h1 h2
    rw [mem_range'_iff]
    omega
  obtain ⟨h0, _, hbound, hcase, hleft⟩ :=
    scan_foldl_spec v line (List.range' (s + 1) (e - (s + 1))) (0, s)
      (le_refl _) (pairwise_lt_range' _ _)
      (fun i hi => Nat.lt_of_succ_le (mem_range'_iff.1 hi).1)
  refine ⟨h0, fun i h1 h2 => hbound i (hmem i h1 h2), ?_,
    fun i h1 h2 => hleft i (hmem i h1 h2)⟩
  rcases hcase with h | ⟨hmem2, hdist, hpos⟩
  · exact Or.inl h
  · have := mem_range'_iff.1 hmem2
    exact Or.inr ⟨by omega, by omega, hdist, hpos⟩

theorem maxScan_nonneg (v : List T) (line : Line) (s e : Nat) :
    0 ≤ (maxScan v line s e).1 :=
  (maxScan_spec v line s e).1

/-- Under a non-negative tolerance, a range that triggers a split has a
strictly interior recorded index. -/
theorem maxScan_split_interior (v : List T) (line : Line) (s e : Nat)
    (epsilon : ℝ) (heps : 0 ≤ epsilon)
    (hsplit : (maxScan v line s e).1 > epsilon) :
    s < (maxScan v line s e).2 ∧ (maxScan v line s e).2 < e := by
  rcases (maxScan_spec v line s e).2.2.1 with h | ⟨h1, h2, _, _⟩
  · rw [h] at hsplit
    exact absurd hsplit (not_lt.2 heps)
  · exact ⟨h1, h2⟩

theorem rdpLoop_nil (v : List T) (epsilon : ℝ) (fuel : Nat) (last : Int)
    (result : List T) : rdpLoop v epsilon fuel [] last result = some result := by
  cases fuel <;> rfl

theorem rdpLoop_zero (v : List T) (epsilon : ℝ) (p : Nat × Nat)
    (rest : List (Nat × Nat)) (last : Int) (result : List T) :
    rdpLoop v epsilon 0 (p :: rest) last result = none := rfl

theorem rdpLoop_split (v : List T) (epsilon : ℝ) (fuel s e : Nat)
    (rest : List (Nat × Nat)) (last : Int) (result : List T) (vs ve : T)
    (hs : v[s]? = some vs) (he : v[e]? = some ve)
    (hgt : (maxScan v (HasPoint.to_point vs, HasPoint.to_point ve) s e).1 >
      epsilon) :
    rdpLoop v epsilon (fuel + 1) ((s, e) :: rest) last result =
      rdpLoop v epsilon fuel
        ((s, (maxScan v (HasPoint.to_point vs, HasPoint.to_point ve) s e).2) ::
          ((maxScan v (HasPoint.to_point vs, HasPoint.to_point ve) s e).2, e) ::
          rest) last result := by
  rw [rdpLoop, hs, he]
  simp only
  rw [if_pos hgt]

theorem rdpLoop_collapse (v : List T) (epsilon : ℝ) (fuel s e : Nat)
    (rest : List (Nat × Nat)) (last : Int) (result : List T) (vs ve : T)
    (hs : v[s]? = some vs) (he : v[e]? = some ve)
    (hle : ¬ (maxScan v (HasPoint.to_point vs, HasPoint.to_point ve) s e).1 >
      epsilon) :
    rdpLoop v epsilon (fuel + 1) ((s, e) :: rest) last result =
      rdpLoop v epsilon fuel rest (e : Int)
        ((if last ≠ (s : Int) then result ++ [vs] else result) ++ [ve]) := by
  rw [rdpLoop, hs, he]
  simp only
  rw [if_neg hle]

theorem rdpLoop_oob (v : List T) (epsilon : ℝ) (fuel s e : Nat)
    (rest : List (Nat × Nat)) (last : Int) (result : List T)
    (h : v[s]? = none ∨ v[e]? = none) :
    rdpLoop v epsilon (fuel + 1) ((s, e) :: rest) last result = none := by
  rw [rdpLoop]
  rcases h with h | h
  · rw [h]
  · rw [h]
    cases v[s]? <;> rfl

/-- With a negative tolerance every popped range splits (any maximum is
`≥ 0 > epsilon`), so the stack never shrinks and the loop never
terminates, whatever the fuel. -/
theorem rdpLoop_neg_none (v : List T) (epsilon : ℝ) (heps : epsilon < 0) :
    ∀ (fuel : Nat) (stack : List (Nat × Nat)) (last : Int) (result : List T),
      stack ≠ [] → rdpLoop v epsilon fuel stack last result = none
  | 0, [], _, _, h => absurd rfl h
  | 0, _ :: _, _, _, _ => rfl
  | _ + 1, [], _, _, h => absurd rfl h
  | fuel + 1, (s, e) :: rest, last, result, _ => by
    cases hs : v[s]? with
    | none => exact rdpLoop_oob v epsilon fuel s e rest last result (Or.inl hs)
    | some vs =>
      cases he : v[e]? with
      | none => exact rdpLoop_oob v epsilon fuel s e rest last result (Or.inr he)
      | some ve =>
        rw [rdpLoop_split v epsilon fuel s e rest last result vs ve hs he
          (lt_of_lt_of_le heps (maxScan_nonneg v _ s e))]
        exact rdpLoop_neg_none v epsilon heps fuel _ last result (by simp)

/-- A run that finishes within some fuel finishes, with the same output,
within any larger fuel. -/
theorem rdpLoop_mono (v : List T) (epsilon : ℝ) :
    ∀ (fuel fuel' : Nat) (stack : List (Nat × Nat)) (last : Int)
      (result r : List T), fuel ≤ fuel' →
      rdpLoop v epsilon fuel stack last result = some r →
      rdpLoop v epsilon fuel' stack last result = some r
  | fuel, fuel', [], _, _, _, _, h => by
    rw [rdpLoop_nil] at h
    rw [rdpLoop_nil]
    exact h
  | 0, _, p :: rest, last, result, _, _, h => by
    rw [rdpLoop_zero] at h
    exact absurd h (by simp)
  | fuel + 1, fuel' + 1, (s, e) :: rest, last, result, r, hle, h => by
    cases hs : v[s]? with
    | none =>
      rw [rdpLoop_oob v epsilon fuel s e rest last result (Or.inl hs)] at h
      exact absurd h (by simp)
    | some vs =>
      cases he : v[e]? with
      | none =>
        rw [rdpLoop_oob v epsilon fuel s e rest last result (Or.inr he)] at h
        exact absurd h (by simp)
      | some ve =>
        by_cases hgt :
          (maxScan v (HasPoint.to_point vs, HasPoint.to_point ve) s e).1 > epsilon
        · rw [rdpLoop_split v epsilon fuel s e rest last result vs ve hs he hgt]
            at h
          rw [rdpLoop_split v epsilon fuel' s e rest last result vs ve hs he hgt]
          exact rdpLoop_mono v epsilon fuel fuel' _ last result r
            (Nat.le_of_succ_le_succ hle) h
        · rw [rdpLoop_collapse v epsilon fuel s e rest last result vs ve hs he
            hgt] at h
          rw [rdpLoop_collapse v epsilon fuel' s e rest last result vs ve hs he
            hgt]
          exact rdpLoop_mono v epsilon fuel fuel' rest _ _ r
            (Nat.le_of_succ_le_succ hle) h

/-- Work remaining on the stack: a range `(s, e)` costs `2 * (e - s) - 1`
loop iterations. -/
def stackMeasure (stack : List (Nat × Nat)) : Nat :=
  (stack.map fun p => 2 * (p.2 - p.1) - 1).sum

/-- With a non-negative tolerance, the loop finishes within
`stackMeasure stack` iterations of fuel, given that every stacked range
has a strictly smaller start than end and stays inside the sequence. -/
theorem rdpLoop_terminates (v : List T) (epsilon : ℝ) (heps : 0 ≤ epsilon) :
    ∀ (fuel : Nat) (stack : List (Nat × Nat)) (last : Int) (result : List T),
      (∀ p ∈ stack, p.1 < p.2 ∧ p.2 < v.length) →
      stackMeasure stack ≤ fuel →
      (rdpLoop v epsilon fuel stack last result).isSome
  | fuel, [], last, result, _, _ => by rw [rdpLoop_nil]; rfl
  | 0, (s, e) :: rest, _, _, hinv, hm => by
    exfalso
    have h1 : s < e := (hinv (s, e) (List.mem_cons_self _ _)).1
    have : 2 * (e - s) - 1 + stackMeasure rest ≤ 0 := by
      simpa [stackMeasure] using hm
    omega
  | fuel + 1, (s, e) :: rest, last, result, hinv, hm => by
    have h1 : s < e := (hinv (s, e) (List.mem_cons_self _ _)).1
    have h2 : e < v.length := (hinv (s, e) (List.mem_cons_self _ _)).2
    have hsv : v[s]? = some (v.get ⟨s, lt_trans h1 h2⟩) :=
      List.getElem?_eq_getElem (lt_trans h1 h2)
    have hev : v[e]? = some (v.get ⟨e, h2⟩) := List.getElem?_eq_getElem h2
    have hmm : 2 * (e - s) - 1 + stackMeasure rest ≤ fuel + 1 := by
      simpa [stackMeasure] using hm
    by_cases hgt :
      (maxScan v (HasPoint.to_point (v.get ⟨s, lt_trans h1 h2⟩),
        HasPoint.to_point (v.get ⟨e, h2⟩)) s e).1 > epsilon
    · rw [rdpLoop_split v epsilon fuel s e rest last result _ _ hsv hev hgt]
      obtain ⟨hi1, hi2⟩ := maxScan_split_interior v _ s e epsilon heps hgt
      apply rdpLoop_terminates v epsilon heps fuel _ last result
      · intro p hp
        rcases List.mem_cons.1 hp with rfl | hp'
        · exact ⟨hi1, lt_trans hi2 h2⟩
        · rcases List.mem_cons.1 hp' with rfl | hp''
          · exact ⟨hi2, h2⟩
          · exact hinv p (List.mem_cons_of_mem _ hp'')
      · simp only [stackMeasure, List.map_cons, List.sum_cons] at hmm ⊢
        omega
    · rw [rdpLoop_collapse v epsilon fuel s e rest last result _ _ hsv hev hgt]
      apply rdpLoop_terminates v epsilon heps fuel rest _ _
      · intro p hp
        exact hinv p (List.mem_cons_of_mem _ hp)
      · omega

/-- The recursion tree of the algorithm, read off as the list of indices a
range `(s, e)` contributes: a range that collapses contributes `[s, e]`,
a split range contributes the left half followed by the right half with
its shared first index dropped.  `fuel` bounds the recursion depth;
`e - s` is always enough (proved below). -/
noncomputable def rdpIdx (v : List T) (epsilon : ℝ) :
    Nat → Nat → Nat → List Nat
  | 0, s, e => [s, e]
  | fuel + 1, s, e =>
    match v[s]?, v[e]? with
    | some vs, some ve =>
      let line : Line := (HasPoint.to_point vs, HasPoint.to_point ve)
      let scan := maxScan v line s e
      if scan.1 > epsilon then
        rdpIdx v epsilon fuel s scan.2 ++ (rdpIdx v epsilon fuel scan.2 e).tail
      else [s, e]
    | _, _ => [s, e]

theorem rdpIdx_split (v : List T) (epsilon : ℝ) (fuel s e : Nat) (vs ve : T)
    (hs : v[s]? = some vs) (he : v[e]? = some ve)
    (hgt : (maxScan v (HasPoint.to_point vs, HasPoint.to_point ve) s e).1 >
      epsilon) :
    rdpIdx v epsilon (fuel + 1) s e =
      rdpIdx v epsilon fuel s
          (maxScan v (HasPoint.to_point vs, HasPoint.to_point ve) s e).2 ++
        (rdpIdx v epsilon fuel
          (maxScan v (HasPoint.to_point vs, HasPoint.to_point ve) s e).2 e).tail := by
  rw [rdpIdx, hs, he]
  simp only
  rw [if_pos hgt]

theorem rdpIdx_collapse (v : List T) (epsilon : ℝ) (fuel s e : Nat) (vs ve : T)
    (hs : v[s]? = some vs) (he : v[e]? = some ve)
    (hle : ¬ (maxScan v (HasPoint.to_point vs, HasPoint.to_point ve) s e).1 >
      epsilon) :
    rdpIdx v epsilon (fuel + 1) s e = [s, e] := by
  rw [rdpIdx, hs, he]
  simp only
  rw [if_neg hle]

/-- Any fuel of at least `e - s` computes the same index tree. -/
theorem rdpIdx_stable (v : List T) (epsilon : ℝ) (heps : 0 ≤ epsilon) :
    ∀ (d s e : Nat), e - s ≤ d → s < e → e < v.length →
      ∀ f, e - s ≤ f → rdpIdx v epsilon f s e = rdpIdx v epsilon (e - s) s e := by
  intro d
  induction d with
  | zero => intro s e hd hse _ _ _; omega
  | succ d ih =>
    intro s e hd hse hev f hf
    obtain ⟨f₁, rfl⟩ : ∃ f₁, f = f₁ + 1 := ⟨f - 1, by omega⟩
    obtain ⟨k, hk⟩ : ∃ k, e - s = k + 1 := ⟨e - s - 1, by omega⟩
    have hsv : v[s]? = some (v.get ⟨s, lt_trans hse hev⟩) :=
      List.getElem?_eq_getElem (lt_trans hse hev)
    have hevv : v[e]? = some (v.get ⟨e, hev⟩) := List.getElem?_eq_getElem hev
    by_cases hgt :
      (maxScan v (HasPoint.to_point (v.get ⟨s, lt_trans hse hev⟩),
        HasPoint.to_point (v.get ⟨e, hev⟩)) s e).1 > epsilon
    · obtain ⟨hi1, hi2⟩ := maxScan_split_interior v _ s e epsilon heps hgt
      rw [hk, rdpIdx_split v epsilon f₁ s e _ _ hsv hevv hgt,
        rdpIdx_split v epsilon k s e _ _ hsv hevv hgt]
      rw [ih s _ (by omega) hi1 (lt_trans hi2 hev) f₁ (by omega),
        ih s _ (by omega) hi1 (lt_trans hi2 hev) k (by omega),
        ih _ e (by omega) hi2 hev f₁ (by omega),
        ih _ e (by omega) hi2 hev k (by omega)]
    · rw [hk, rdpIdx_collapse v epsilon f₁ s e _ _ hsv hevv hgt,
        rdpIdx_collapse v epsilon k s e _ _ hsv hevv hgt]

/-- Shape of the index tree of a range `(s, e)` under a non-negative
tolerance: it starts with `s`, ends with `e`, has at least two entries,
is strictly increasing, and stays inside `[s, e]`. -/
theorem rdpIdx_struct (v : List T) (epsilon : ℝ) (heps : 0 ≤ epsilon) :
    ∀ (d s e : Nat), e - s ≤ d → s < e → e < v.length →
      (rdpIdx v epsilon (e - s) s e).head? = some s ∧
      (rdpIdx v epsilon (e - s) s e).getLast? = some e ∧
      2 ≤ (rdpIdx v epsilon (e - s) s e).length ∧
      (rdpIdx v epsilon (e - s) s e).Pairwise (· < ·) ∧
      (∀ i ∈ rdpIdx v epsilon (e - s) s e, s ≤ i ∧ i ≤ e) := by
  intro d
  induction d with
  | zero => intro s e hd hse _; omega
  | succ d ih =>
    intro s e hd hse hev
    obtain ⟨k, hk⟩ : ∃ k, e - s = k + 1 := ⟨e - s - 1, by omega⟩
    have hsv : v[s]? = some (v.get ⟨s, lt_trans hse hev⟩) :=
      List.getElem?_eq_getElem (lt_trans hse hev)
    have hevv : v[e]? = some (v.get ⟨e, hev⟩) := List.getElem?_eq_getElem hev
    by_cases hgt :
      (maxScan v (HasPoint.to_point (v.get ⟨s, lt_trans hse hev⟩),
        HasPoint.to_point (v.get ⟨e, hev⟩)) s e).1 > epsilon
    · obtain ⟨hi1, hi2⟩ := maxScan_split_interior v _ s e epsilon heps hgt
      set mi := (maxScan v (HasPoint.to_point (v.get ⟨s, lt_trans hse hev⟩),
        HasPoint.to_point (v.get ⟨e, hev⟩)) s e).2 with hmi
      rw [hk, rdpIdx_split v epsilon k s e _ _ hsv hevv hgt]
      rw [rdpIdx_stable v epsilon heps d s mi (by omega) hi1
          (lt_trans hi2 hev) k (by omega),
        rdpIdx_stable v epsilon heps d mi e (by omega) hi2 hev k (by omega)]
      obtain ⟨hA1, hA2, hA3, hA4, hA5⟩ := ih s mi (by omega) hi1 (lt_trans hi2 hev)
      obtain ⟨hB1, hB2, hB3, hB4, hB5⟩ := ih mi e (by omega) hi2 hev
      set A := rdpIdx v epsilon (mi - s) s mi with hA
      set B := rdpIdx v epsilon (e - mi) mi e with hB
      obtain ⟨Bt, hBt⟩ : ∃ Bt, B = mi :: Bt := exists_cons_of_head?_some hB1
      have hBtne : Bt ≠ [] := by
        intro hnil
        rw [hBt, hnil] at hB3
        simp at hB3
      have hAne : A ≠ [] := by
        intro hnil
        rw [hnil] at hA3
        simp at hA3
      have hBtlt : ∀ b ∈ Bt, mi < b := (List.pairwise_cons.1 (hBt ▸ hB4)).1
      have hBtpw : Bt.Pairwise (· < ·) := (List.pairwise_cons.1 (hBt ▸ hB4)).2
      have hBtlast : Bt.getLast? = some e := by
        obtain ⟨y, hy⟩ := Option.isSome_iff_exists.1
          (List.getLast?_isSome.2 hBtne)
        rw [hBt, ← List.singleton_append, List.getLast?_append, hy] at hB2
        simpa [hy] using hB2
      rw [hBt]
      simp only [List.tail_cons]
      refine ⟨?_, ?_, ?_, ?_, ?_⟩
      · rw [List.head?_append, hA1]
        rfl
      · rw [List.getLast?_append, hBtlast]
        rfl
      · rw [List.length_append]
        omega
      · refine List.pairwise_append.2 ⟨hA4, hBtpw, ?_⟩
        intro a ha b hb
        exact lt_of_le_of_lt (hA5 a ha).2 (hBtlt b hb)
      · intro i hi
        rcases List.mem_append.1 hi with hi' | hi'
        · exact ⟨(hA5 i hi').1, le_trans (hA5 i hi').2 (le_of_lt hi2)⟩
        · have := hB5 i (hBt ▸ List.mem_cons_of_mem _ hi')
          exact ⟨le_trans (le_of_lt hi1) this.1, this.2⟩
    · rw [hk, rdpIdx_collapse v epsilon k s e _ _ hsv hevv hgt]
      refine ⟨rfl, rfl, by simp, ?_, ?_⟩
      · exact List.pairwise_cons.2 ⟨by simpa using hse, by simp⟩
      · intro i hi
        rcases List.mem_cons.1 hi with rfl | hi'
        · omega
        · simp only [List.mem_singleton] at hi'
          omega

/-- What a collapsed or split range contributes to the result list: the
elements of the sequence at the indices of the range's recursion tree,
with the leading shared index dropped when the previously emitted range
ended exactly at `s` (the duplicate-boundary suppression rule). -/
noncomputable def emitRange (v : List T) (epsilon : ℝ) (last : Int) (s e : Nat) :
    List T :=
  (if last = (s : Int) then (rdpIdx v epsilon (e - s) s e).tail
    else rdpIdx v epsilon (e - s) s e).filterMap fun i => v[i]?

/-- Resolving the top range of the stack appends exactly `emitRange` of
that range to the accumulated result: the loop is equivalent to the
recursion tree. -/
theorem rdp_bridge (v : List T) (epsilon : ℝ) (heps : 0 ≤ epsilon) :
    ∀ (d s e : Nat), e - s ≤ d → s < e → e < v.length →
      ∀ (rest : List (Nat × Nat)) (last : Int) (result r : List T),
        (∃ fuel, rdpLoop v epsilon fuel rest (e : Int)
          (result ++ emitRange v epsilon last s e) = some r) →
        ∃ fuel, rdpLoop v epsilon fuel ((s, e) :: rest) last result = some r := by
  intro d
  induction d with
  | zero => intro s e hd hse _; omega
  | succ d ih =>
    intro s e hd hse hev rest last result r h
    obtain ⟨k, hk⟩ : ∃ k, e - s = k + 1 := ⟨e - s - 1, by omega⟩
    have hsv : v[s]? = some (v.get ⟨s, lt_trans hse hev⟩) :=
      List.getElem?_eq_getElem (lt_trans hse hev)
    have hevv : v[e]? = some (v.get ⟨e, hev⟩) := List.getElem?_eq_getElem hev
    by_cases hgt :
      (maxScan v (HasPoint.to_point (v.get ⟨s, lt_trans hse hev⟩),
        HasPoint.to_point (v.get ⟨e, hev⟩)) s e).1 > epsilon
    · obtain ⟨hi1, hi2⟩ := maxScan_split_interior v _ s e epsilon heps hgt
      set mi := (maxScan v (HasPoint.to_point (v.get ⟨s, lt_trans hse hev⟩),
        HasPoint.to_point (v.get ⟨e, hev⟩)) s e).2 with hmi
      have hidx : rdpIdx v epsilon (e - s) s e =
          rdpIdx v epsilon (mi - s) s mi ++
            (rdpIdx v epsilon (e - mi) mi e).tail := by
        rw [hk, rdpIdx_split v epsilon k s e _ _ hsv hevv hgt,
          rdpIdx_stable v epsilon heps d s mi (by omega) hi1
            (lt_trans hi2 hev) k (by omega),
          rdpIdx_stable v epsilon heps d mi e (by omega) hi2 hev k (by omega)]
      obtain ⟨hA1, _, hA3, _, _⟩ :=
        rdpIdx_struct v epsilon heps (mi - s) s mi (le_refl _) hi1
          (lt_trans hi2 hev)
      obtain ⟨hB1, _, _, _, _⟩ :=
        rdpIdx_struct v epsilon heps (e - mi) mi e (le_refl _) hi2 hev
      have hAne : rdpIdx v epsilon (mi - s) s mi ≠ [] := by
        intro hnil
        rw [hnil] at hA3
        simp at hA3
      have hemit : emitRange v epsilon last s e =
          emitRange v epsilon last s mi ++ emitRange v epsilon (mi : Int) mi e := by
        unfold emitRange
        rw [hidx]
        have hmimi : ((mi : Int) = ((mi : Nat) : Int)) := rfl
        rw [if_pos hmimi]
        obtain ⟨Bt, hBt⟩ := exists_cons_of_head?_some hB1
        rw [hBt]
        simp only [List.tail_cons]
        by_cases hls : last = (s : Int)
        · rw [if_pos hls, if_pos hls,
            List.tail_append_of_ne_nil hAne, List.filterMap_append]
        · rw [if_neg hls, if_neg hls, List.filterMap_append]
      have h2 : ∃ fuel, rdpLoop v epsilon fuel ((mi, e) :: rest) (mi : Int)
          (result ++ emitRange v epsilon last s mi) = some r := by
        apply ih mi e (by omega) hi2 hev
        obtain ⟨f, hf⟩ := h
        refine ⟨f, ?_⟩
        rw [List.append_assoc]
        rw [hemit] at hf
        exact hf
      have h3 : ∃ fuel, rdpLoop v epsilon fuel
          ((s, mi) :: (mi, e) :: rest) last result = some r :=
        ih s mi (by omega) hi1 (lt_trans hi2 hev) ((mi, e) :: rest) last result r h2
      obtain ⟨f, hf⟩ := h3
      refine ⟨f + 1, ?_⟩
      rw [rdpLoop_split v epsilon f s e rest last result _ _ hsv hevv hgt]
      exact hf
    · have hidx : rdpIdx v epsilon (e - s) s e = [s, e] := by
        rw [hk]
        exact rdpIdx_collapse v epsilon k s e _ _ hsv hevv hgt
      have hemit : result ++ emitRange v epsilon last s e =
          (if last ≠ (s : Int) then result ++ [v.get ⟨s, lt_trans hse hev⟩]
            else result) ++ [v.get ⟨e, hev⟩] := by
        unfold emitRange
        rw [hidx]
        by_cases hls : last = (s : Int)
        · rw [if_pos hls, if_neg (by simpa using hls)]
          simp [List.filterMap_cons, hevv]
        · rw [if_neg hls, if_pos hls]
          simp [List.filterMap_cons, hsv, hevv]
      obtain ⟨f, hf⟩ := h
      refine ⟨f + 1, ?_⟩
      rw [rdpLoop_collapse v epsilon f s e rest last result _ _ hsv hevv hgt,
        ← hemit]
      exact hf

/-- For a non-negative tolerance and at least three points, the function
returns exactly the emission of the full range `(0, length - 1)` with no
previously emitted index (`last_stack_index = -1`). -/
theorem rdp_eq_emit (v : List T) (epsilon : ℝ) (heps : 0 ≤ epsilon)
    (hlen : 3 ≤ v.length) :
    ramer_douglas_peucker v epsilon =
      some (emitRange v epsilon (-1) 0 (v.length - 1)) := by
  have h0 : (0 : Nat) < v.length - 1 := by omega
  have h1 : v.length - 1 < v.length := by omega
  obtain ⟨f₀, hf₀⟩ :=
    rdp_bridge v epsilon heps (v.length - 1) 0 (v.length - 1) (by omega) h0 h1
      [] (-1) [] (emitRange v epsilon (-1) 0 (v.length - 1))
      ⟨0, by rw [rdpLoop_nil, List.nil_append]⟩
  have hterm := rdpLoop_terminates v epsilon heps (2 * v.length)
    [(0, v.length - 1)] (-1) []
    (by
      intro p hp
      simp only [List.mem_singleton] at hp
      subst hp
      exact ⟨h0, h1⟩)
    (by
      simp only [stackMeasure, List.map_cons, List.map_nil, List.sum_cons,
        List.sum_nil]
      omega)
  obtain ⟨y, hy⟩ := Option.isSome_iff_exists.1 hterm
  have hm1 := rdpLoop_mono v epsilon f₀ (max f₀ (2 * v.length))
    [(0, v.length - 1)] (-1) [] _ (le_max_left _ _) hf₀
  have hm2 := rdpLoop_mono v epsilon (2 * v.length) (max f₀ (2 * v.length))
    [(0, v.length - 1)] (-1) [] _ (le_max_right _ _) hy
  rw [hm1] at hm2
  unfold ramer_douglas_peucker
  rw [if_neg (by omega), hy]
  rw [Option.some.injEq] at hm2 ⊢
  exact hm2.symm

theorem filterMap_getElem?_eq_pmap (v : List T) :
    ∀ (l : List Nat) (h : ∀ i ∈ l, i < v.length),
      (l.filterMap fun i => v[i]?) =
        (l.pmap (fun i hi => (⟨i, hi⟩ : Fin v.length)) h).map v.get := by
  intro l
  induction l with
  | nil => intro _; rfl
  | cons a t iht =>
    intro h
    have ha : a < v.length := h a (List.mem_cons_self _ _)
    rw [List.filterMap_cons, List.getElem?_eq_getElem ha]
    simp only [List.pmap, List.map_cons]
    rw [iht fun i hi => h i (List.mem_cons_of_mem _ hi)]
    rfl

theorem filterMap_getElem?_sublist (v : List T) :
    ∀ (l : List Nat), l.Pairwise (· < ·) → ∀ k, (∀ i ∈ l, k ≤ i) →
      List.Sublist (l.filterMap fun i => v[i]?) (v.drop k) := by
  intro l
  induction l with
  | nil => intro _ k _; exact List.nil_sublist _
  | cons a t iht =>
    intro hpw k hk
    have hta : ∀ i ∈ t, a + 1 ≤ i :=
      fun i hi => (List.pairwise_cons.1 hpw).1 i hi
    have hka : k ≤ a := hk a (List.mem_cons_self _ _)
    have hdrop : List.Sublist (v.drop (a + 1)) (v.drop k) := by
      have : v.drop (a + 1) = (v.drop k).drop (a + 1 - k) := by
        rw [List.drop_drop]
        congr 1
        omega
      rw [this]
      exact List.drop_sublist _ _
    rw [List.filterMap_cons]
    cases hva : v[a]? with
    | none =>
      exact ((iht (List.pairwise_cons.1 hpw).2 (a + 1) hta).trans hdrop)
    | some x =>
      obtain ⟨halt, hx⟩ := List.getElem?_eq_some_iff.1 hva
      have hdropa : v.drop a = x :: v.drop (a + 1) := by
        rw [List.drop_eq_getElem_cons halt, hx]
      have h1 : List.Sublist (x :: (t.filterMap fun i => v[i]?)) (v.drop a) := by
        rw [hdropa]
        exact List.Sublist.cons₂ x (iht (List.pairwise_cons.1 hpw).2 (a + 1) hta)
      refine h1.trans ?_
      have : v.drop a = (v.drop k).drop (a - k) := by
        rw [List.drop_drop]
        congr 1
        omega
      rw [this]
      exact List.drop_sublist _ _

/-- C1: every terminating run returns an order-preserving subsequence of
the input, taken by position: there is a strictly increasing list of
indices whose elements, read off from the input unchanged, form the
output; in particular the output is a sublist of the input. -/
theorem c1_output_subsequence (v : List T) (epsilon : ℝ) (r : List T)
    (h : ramer_douglas_peucker v epsilon = some r) :
    (∃ ix : List (Fin v.length), ix.Pairwise (· < ·) ∧ r = ix.map v.get) ∧
      r.Sublist v := by
  by_cases hlt : v.length < 3
  · rw [ramer_douglas_peucker, if_pos hlt, Option.some.injEq] at h
    subst h
    exact ⟨⟨List.finRange v.length, List.pairwise_lt_finRange _,
      (List.finRange_map_get v).symm⟩, List.Sublist.refl v⟩
  · have heps : 0 ≤ epsilon := by
      by_contra hneg
      rw [ramer_douglas_peucker, if_neg hlt,
        rdpLoop_neg_none v epsilon (by linarith) _ _ _ _ (by simp)] at h
      exact absurd h (by simp)
    rw [rdp_eq_emit v epsilon heps (by omega), Option.some.injEq] at h
    subst h
    have hlast : ((-1 : Int) = ((0 : Nat) : Int)) = False := by
      simp
    obtain ⟨_, _, _, hpw, hbnd⟩ :=
      rdpIdx_struct v epsilon heps (v.length - 1) 0 (v.length - 1)
        (le_refl _) (by omega) (by omega)
    have hbnd' : ∀ i ∈ rdpIdx v epsilon (v.length - 1 - 0) 0 (v.length - 1),
        i < v.length := by
      intro i hi
      have := hbnd i (by simpa using hi)
      omega
    rw [emitRange, if_neg (by simp)]
    refine ⟨⟨(rdpIdx v epsilon (v.length - 1 - 0) 0 (v.length - 1)).pmap
      (fun i hi => (⟨i, hi⟩ : Fin v.length)) hbnd', ?_, ?_⟩, ?_⟩
    · refine List.Pairwise.pmap (by simpa using hpw) hbnd' ?_
      intro x hx y hy hxy
      exact hxy
    · exact filterMap_getElem?_eq_pmap v _ hbnd'
    · have := filterMap_getElem?_sublist v
        (rdpIdx v epsilon (v.length - 1 - 0) 0 (v.length - 1))
        (by simpa using hpw) 0 (fun i _ => Nat.zero_le i)
      simpa using this

/-- C2: on any non-empty input, a terminating run returns a non-empty
output whose first and last elements are the first and last elements of
the input. -/
theorem c2_endpoints (v : List T) (epsilon : ℝ) (r : List T) (hne : v ≠ [])
    (h : ramer_douglas_peucker v epsilon = some r) :
    r ≠ [] ∧ r.head? = v.head? ∧ r.getLast? = v.getLast? := by
  by_cases hlt : v.length < 3
  · rw [ramer_douglas_peucker, if_pos hlt, Option.some.injEq] at h
    subst h
    exact ⟨hne, rfl, rfl⟩
  · have heps : 0 ≤ epsilon := by
      by_contra hneg
      rw [ramer_douglas_peucker, if_neg hlt,
        rdpLoop_neg_none v epsilon (by linarith) _ _ _ _ (by simp)] at h
      exact absurd h (by simp)
    rw [rdp_eq_emit v epsilon heps (by omega), Option.some.injEq] at h
    subst h
    obtain ⟨hhd, hlast, _, _, hbnd⟩ :=
      rdpIdx_struct v epsilon heps (v.length - 1) 0 (v.length - 1)
        (le_refl _) (by omega) (by omega)
    rw [emitRange, if_neg (by simp)]
    set l := rdpIdx v epsilon (v.length - 1 - 0) 0 (v.length - 1) with hl
    have hhd' : l.head? = some 0 := by simpa using hhd
    have hlast' : l.getLast? = some (v.length - 1) := by simpa using hlast
    obtain ⟨t, ht⟩ := exists_cons_of_head?_some hhd'
    obtain ⟨u, hu⟩ := List.getLast?_eq_some_iff.1 hlast'
    have h0v : v[0]? = some (v.get ⟨0, by omega⟩) :=
      List.getElem?_eq_getElem (by omega)
    have hnv : v[v.length - 1]? = some (v.get ⟨v.length - 1, by omega⟩) :=
      List.getElem?_eq_getElem (by omega)
    refine ⟨?_, ?_, ?_⟩
    · rw [ht, List.filterMap_cons, h0v]
      simp
    · rw [ht, List.filterMap_cons, h0v, List.head?_cons, List.head?_eq_getElem?,
        h0v]
    · rw [hu, List.filterMap_append, List.getLast?_append]
      have : List.filterMap (fun i => v[i]?) [v.length - 1] =
          [v.get ⟨v.length - 1, by omega⟩] := by
        rw [List.filterMap_cons, hnv]
        rfl
      rw [this, List.getLast?_eq_getElem? v]
      simp [hnv]

theorem c1_output_subsequence_witness :
    ramer_douglas_peucker ([((1 : ℝ), (1 : ℝ))] : List Point) (1 / 2) =
      some [((1 : ℝ), (1 : ℝ))] ∧
    ((∃ ix : List (Fin ([((1 : ℝ), (1 : ℝ))] : List Point).length),
        ix.Pairwise (· < ·) ∧
          [((1 : ℝ), (1 : ℝ))] = ix.map ([((1 : ℝ), (1 : ℝ))] : List Point).get) ∧
      List.Sublist [((1 : ℝ), (1 : ℝ))] [((1 : ℝ), (1 : ℝ))]) := by
  refine ⟨rfl, ?_⟩
  exact c1_output_subsequence ([((1 : ℝ), (1 : ℝ))] : List Point) (1 / 2)
    [((1 : ℝ), (1 : ℝ))] rfl

theorem c2_endpoints_witness :
    (([((1 : ℝ), (1 : ℝ))] : List Point) ≠ [] ∧
      ramer_douglas_peucker ([((1 : ℝ), (1 : ℝ))] : List Point) 0 =
        some [((1 : ℝ), (1 : ℝ))]) ∧
    (([((1 : ℝ), (1 : ℝ))] : List Point) ≠ [] ∧
      ([((1 : ℝ), (1 : ℝ))] : List Point).head? =
        ([((1 : ℝ), (1 : ℝ))] : List Point).head? ∧
      ([((1 : ℝ), (1 : ℝ))] : List Point).getLast? =
        ([((1 : ℝ), (1 : ℝ))] : List Point).getLast?) := by
  refine ⟨⟨by simp, rfl⟩, ?_⟩
  exact c2_endpoints ([((1 : ℝ), (1 : ℝ))] : List Point) 0
    [((1 : ℝ), (1 : ℝ))] (by simp) rfl

theorem rdp_isSome_of_nonneg (v : List T) (epsilon : ℝ) (heps : 0 ≤ epsilon) :
    (ramer_douglas_peucker v epsilon).isSome := by
  by_cases hlt : v.length < 3
  · rw [ramer_douglas_peucker, if_pos hlt]
    rfl
  · rw [rdp_eq_emit v epsilon heps (by omega)]
    rfl

/-- C4: for every finite sequence and every non-negative tolerance the
work-list loop resolves every range and the function returns a result. -/
theorem c4_total_nonneg_epsilon (v : List T) (epsilon : ℝ)
    (heps : 0 ≤ epsilon) : (ramer_douglas_peucker v epsilon).isSome :=
  rdp_isSome_of_nonneg v epsilon heps

theorem c4_total_nonneg_epsilon_witness :
    (0 : ℝ) ≤ 0 ∧
      (ramer_douglas_peucker
        ([((0 : ℝ), (0 : ℝ)), ((1 : ℝ), (1 : ℝ)), ((2 : ℝ), (0 : ℝ))] :
          List Point) 0).isSome :=
  ⟨le_refl 0,
    c4_total_nonneg_epsilon
      ([((0 : ℝ), (0 : ℝ)), ((1 : ℝ), (1 : ℝ)), ((2 : ℝ), (0 : ℝ))] :
        List Point) 0 (le_refl 0)⟩

/-- C3 (corrected, counterexample): on three collinear points with
`epsilon = -1` the function does not produce a result: the flat range
`(0, 2)` keeps `max_index = start_index`, so the split re-pushes the same
range forever and no fuel suffices. -/
theorem c3_counterexample :
    ramer_douglas_peucker
      ([((0 : ℝ), (0 : ℝ)), ((1 : ℝ), (0 : ℝ)), ((2 : ℝ), (0 : ℝ))] :
        List Point) (-1) = none := by
  rw [ramer_douglas_peucker, if_neg (by norm_num)]
  exact rdpLoop_neg_none _ _ (by norm_num) _ _ _ _ (by simp)

/-- C3 (amended): the function is total for every non-negative tolerance;
for a negative tolerance and at least three points the loop never
terminates — it returns `none` for every fuel bound, because every popped
range splits (any maximum deviation is `≥ 0 > epsilon`), including the
degenerate split that re-pushes an identical range. -/
theorem c3_termination_amended (v : List T) (epsilon : ℝ) :
    (0 ≤ epsilon → (ramer_douglas_peucker v epsilon).isSome) ∧
    (epsilon < 0 → 3 ≤ v.length → ∀ (fuel : Nat) (last : Int) (result : List T),
      rdpLoop v epsilon fuel [(0, v.length - 1)] last result = none) := by
  refine ⟨rdp_isSome_of_nonneg v epsilon, ?_⟩
  intro hneg _ fuel last result
  exact rdpLoop_neg_none v epsilon hneg fuel _ last result (by simp)

theorem c3_termination_amended_witness :
    ((0 : ℝ) ≤ 0 ∧
      (ramer_douglas_peucker
        ([((0 : ℝ), (0 : ℝ)), ((1 : ℝ), (0 : ℝ)), ((2 : ℝ), (0 : ℝ))] :
          List Point) 0).isSome) ∧
    ((-1 : ℝ) < 0 ∧
      rdpLoop
        ([((0 : ℝ), (0 : ℝ)), ((1 : ℝ), (0 : ℝ)), ((2 : ℝ), (0 : ℝ))] :
          List Point) (-1) 7 [(0, 2)] (-1) [] = none) := by
  constructor
  · exact ⟨le_refl 0,
      (c3_termination_amended
        ([((0 : ℝ), (0 : ℝ)), ((1 : ℝ), (0 : ℝ)), ((2 : ℝ), (0 : ℝ))] :
          List Point) 0).1 (le_refl 0)⟩
  · refine ⟨by norm_num, ?_⟩
    have :=
      (c3_termination_amended
        ([((0 : ℝ), (0 : ℝ)), ((1 : ℝ), (0 : ℝ)), ((2 : ℝ), (0 : ℝ))] :
          List Point) (-1)).2 (by norm_num) (by norm_num) 7 (-1) []
    simpa using this

theorem sublist_tail_of_cons_cons {α : Type} {a : α} {t1 t2 : List α}
    (h : List.Sublist (a :: t1) (a :: t2)) : List.Sublist t1 t2 := by
  cases h with
  | cons _ h' => exact (List.sublist_cons_self a t1).trans h'
  | cons₂ _ h' => exact h'

/-- Raising the tolerance only prunes the recursion tree: the index tree
at tolerance `e2 ≥ e1` is a sublist of the index tree at `e1`. -/
theorem rdpIdx_anti (v : List T) (e1 e2 : ℝ) (h1 : 0 ≤ e1) (h12 : e1 ≤ e2) :
    ∀ (d s e : Nat), e - s ≤ d → s < e → e < v.length →
      List.Sublist (rdpIdx v e2 (e - s) s e) (rdpIdx v e1 (e - s) s e) := by
  intro d
  induction d with
  | zero => intro s e hd hse _; omega
  | succ d ih =>
    intro s e hd hse hev
    have h2 : 0 ≤ e2 := le_trans h1 h12
    obtain ⟨k, hk⟩ : ∃ k, e - s = k + 1 := ⟨e - s - 1, by omega⟩
    have hsv : v[s]? = some (v.get ⟨s, lt_trans hse hev⟩) :=
      List.getElem?_eq_getElem (lt_trans hse hev)
    have hevv : v[e]? = some (v.get ⟨e, hev⟩) := List.getElem?_eq_getElem hev
    set md := (maxScan v (HasPoint.to_point (v.get ⟨s, lt_trans hse hev⟩),
      HasPoint.to_point (v.get ⟨e, hev⟩)) s e).1 with hmd
    by_cases hgt1 : md > e1
    · by_cases hgt2 : md > e2
      · obtain ⟨hi1, hi2⟩ := maxScan_split_interior v _ s e e1 h1 hgt1
        set mi := (maxScan v (HasPoint.to_point (v.get ⟨s, lt_trans hse hev⟩),
          HasPoint.to_point (v.get ⟨e, hev⟩)) s e).2 with hmi
        rw [hk, rdpIdx_split v e1 k s e _ _ hsv hevv hgt1,
          rdpIdx_split v e2 k s e _ _ hsv hevv hgt2]
        rw [rdpIdx_stable v e1 h1 d s mi (by omega) hi1
            (lt_trans hi2 hev) k (by omega),
          rdpIdx_stable v e1 h1 d mi e (by omega) hi2 hev k (by omega),
          rdpIdx_stable v e2 h2 d s mi (by omega) hi1
            (lt_trans hi2 hev) k (by omega),
          rdpIdx_stable v e2 h2 d mi e (by omega) hi2 hev k (by omega)]
        have hA := ih s mi (by omega) hi1 (lt_trans hi2 hev)
        have hB := ih mi e (by omega) hi2 hev
        obtain ⟨hB11, _, _, _, _⟩ :=
          rdpIdx_struct v e1 h1 (e - mi) mi e (le_refl _) hi2 hev
        obtain ⟨hB21, _, _, _, _⟩ :=
          rdpIdx_struct v e2 h2 (e - mi) mi e (le_refl _) hi2 hev
        obtain ⟨t1, ht1⟩ := exists_cons_of_head?_some hB11
        obtain ⟨t2, ht2⟩ := exists_cons_of_head?_some hB21
        refine List.Sublist.append hA ?_
        rw [ht1, ht2]
        simp only [List.tail_cons]
        exact sublist_tail_of_cons_cons (by rw [← ht1, ← ht2]; exact hB)
      · obtain ⟨hi1, hi2⟩ := maxScan_split_interior v _ s e e1 h1 hgt1
        set mi := (maxScan v (HasPoint.to_point (v.get ⟨s, lt_trans hse hev⟩),
          HasPoint.to_point (v.get ⟨e, hev⟩)) s e).2 with hmi
        rw [hk, rdpIdx_split v e1 k s e _ _ hsv hevv hgt1,
          rdpIdx_collapse v e2 k s e _ _ hsv hevv hgt2]
        rw [rdpIdx_stable v e1 h1 d s mi (by omega) hi1
            (lt_trans hi2 hev) k (by omega),
          rdpIdx_stable v e1 h1 d mi e (by omega) hi2 hev k (by omega)]
        obtain ⟨hA1, _, _, _, _⟩ :=
          rdpIdx_struct v e1 h1 (mi - s) s mi (le_refl _) hi1
            (lt_trans hi2 hev)
        obtain ⟨hB1, hB2, hB3, _, _⟩ :=
          rdpIdx_struct v e1 h1 (e - mi) mi e (le_refl _) hi2 hev
        obtain ⟨ta, hta⟩ := exists_cons_of_head?_some hA1
        obtain ⟨tb, htb⟩ := exists_cons_of_head?_some hB1
        have htbne : tb ≠ [] := by
          intro hnil
          rw [htb, hnil] at hB3
          simp at hB3
        have htblast : tb.getLast? = some e := by
          obtain ⟨y, hy⟩ := Option.isSome_iff_exists.1
            (List.getLast?_isSome.2 htbne)
          rw [htb, ← List.singleton_append, List.getLast?_append, hy] at hB2
          simpa [hy] using hB2
        have hmem : e ∈ tb := List.mem_of_getLast?_eq_some htblast
        rw [hta, htb]
        simp only [List.tail_cons]
        have hleft : List.Sublist [s] (s :: ta) :=
          List.Sublist.cons₂ s (List.nil_sublist ta)
        have hright : List.Sublist [e] tb := List.singleton_sublist.2 hmem
        simpa using List.Sublist.append hleft hright
    · have hgt2 : ¬ md > e2 := fun hc => hgt1 (lt_of_le_of_lt h12 hc)
      rw [hk, rdpIdx_collapse v e1 k s e _ _ hsv hevv hgt1,
        rdpIdx_collapse v e2 k s e _ _ hsv hevv hgt2]

/-- C5: for a fixed input, raising the tolerance never lengthens the
output of two terminating runs. -/
theorem c5_epsilon_monotone (v : List T) (e1 e2 : ℝ) (r1 r2 : List T)
    (h12 : e1 ≤ e2) (h1 : ramer_douglas_peucker v e1 = some r1)
    (h2 : ramer_douglas_peucker v e2 = some r2) :
    r2.length ≤ r1.length := by
  by_cases hlt : v.length < 3
  · rw [ramer_douglas_peucker, if_pos hlt, Option.some.injEq] at h1 h2
    rw [← h1, ← h2]
  · have he1 : 0 ≤ e1 := by
      by_contra hneg
      rw [ramer_douglas_peucker, if_neg hlt,
        rdpLoop_neg_none v e1 (by linarith) _ _ _ _ (by simp)] at h1
      exact absurd h1 (by simp)
    have he2 : 0 ≤ e2 := le_trans he1 h12
    rw [rdp_eq_emit v e1 he1 (by omega), Option.some.injEq] at h1
    rw [rdp_eq_emit v e2 he2 (by omega), Option.some.injEq] at h2
    subst h1 h2
    rw [emitRange, emitRange, if_neg (by simp), if_neg (by simp)]
    exact List.Sublist.length_le
      (List.Sublist.filterMap _
        (rdpIdx_anti v e1 e2 he1 h12 (v.length - 1) 0 (v.length - 1)
          (le_refl _) (by omega) (by omega)))

theorem c5_epsilon_monotone_witness :
    (0 : ℝ) ≤ 1 ∧
      ramer_douglas_peucker ([((1 : ℝ), (1 : ℝ))] : List Point) 0 =
        some [((1 : ℝ), (1 : ℝ))] ∧
      ramer_douglas_peucker ([((1 : ℝ), (1 : ℝ))] : List Point) 1 =
        some [((1 : ℝ), (1 : ℝ))] ∧
      ([((1 : ℝ), (1 : ℝ))] : List Point).length ≤
        ([((1 : ℝ), (1 : ℝ))] : List Point).length := by
  refine ⟨by norm_num, rfl, rfl, ?_⟩
  exact c5_epsilon_monotone ([((1 : ℝ), (1 : ℝ))] : List Point) 0 1 _ _
    (by norm_num) rfl rfl

/-- C6: inputs with at most two elements are returned unchanged, for any
tolerance of any sign. -/
theorem c6_short_input (v : List T) (epsilon : ℝ) (h : v.length ≤ 2) :
    ramer_douglas_peucker v epsilon = some v := by
  rw [ramer_douglas_peucker, if_pos (by omega)]

theorem c6_short_input_witness :
    ([((1 : ℝ), (1 : ℝ)), ((2 : ℝ), (2 : ℝ))] : List Point).length ≤ 2 ∧
      ramer_douglas_peucker
        ([((1 : ℝ), (1 : ℝ)), ((2 : ℝ), (2 : ℝ))] : List Point) (-3) =
        some [((1 : ℝ), (1 : ℝ)), ((2 : ℝ), (2 : ℝ))] :=
  ⟨by norm_num,
    c6_short_input ([((1 : ℝ), (1 : ℝ)), ((2 : ℝ), (2 : ℝ))] : List Point)
      (-3) (by norm_num)⟩

/-- C7: the distance to a degenerate line `(a, a)` is exactly the
point-to-point distance to `a`. -/
theorem c7_degenerate_line (p a : Point) :
    distance_point_to_line p (a, a) = distance_point_to_point p a := by
  rw [distance_point_to_line, if_pos rfl]

theorem to_point_point (p : Point) : HasPoint.to_point p = p := rfl

/-- Example input: three collinear points on the x-axis. -/
noncomputable def collinear3 : List Point :=
  [((0 : ℝ), (0 : ℝ)), ((1 : ℝ), (0 : ℝ)), ((2 : ℝ), (0 : ℝ))]

/-- Example input: a wedge whose middle point deviates by 1. -/
noncomputable def wedge3 : List Point :=
  [((0 : ℝ), (0 : ℝ)), ((1 : ℝ), (1 : ℝ)), ((2 : ℝ), (0 : ℝ))]

theorem sqrt_four : Real.sqrt (4 : ℝ) = 2 := by
  have h : (4 : ℝ) = 2 ^ 2 := by norm_num
  rw [h, Real.sqrt_sq (by norm_num : (0 : ℝ) ≤ 2)]

theorem dist_mid_collinear3 :
    distance_point_to_line ((1 : ℝ), (0 : ℝ))
      (((0 : ℝ), (0 : ℝ)), ((2 : ℝ), (0 : ℝ))) = 0 := by
  rw [distance_point_to_line, if_neg (by norm_num [Prod.ext_iff])]
  norm_num

theorem dist_mid_wedge3 :
    distance_point_to_line ((1 : ℝ), (1 : ℝ))
      (((0 : ℝ), (0 : ℝ)), ((2 : ℝ), (0 : ℝ))) = 1 := by
  rw [distance_point_to_line, if_neg (by norm_num [Prod.ext_iff])]
  simp only
  norm_num [sqrt_four]

theorem scan_collinear3 :
    maxScan collinear3 (((0 : ℝ), (0 : ℝ)), ((2 : ℝ), (0 : ℝ))) 0 2 = (0, 0) := by
  have h1 : collinear3[1]? = some ((1 : ℝ), (0 : ℝ)) := rfl
  have hr : List.range' (0 + 1) (2 - (0 + 1)) = [1] := rfl
  rw [maxScan, hr, List.foldl_cons, List.foldl_nil]
  simp only [scanStep, h1, to_point_point, dist_mid_collinear3]
  norm_num

theorem scan_wedge3 :
    maxScan wedge3 (((0 : ℝ), (0 : ℝ)), ((2 : ℝ), (0 : ℝ))) 0 2 = (1, 1) := by
  have h1 : wedge3[1]? = some ((1 : ℝ), (1 : ℝ)) := rfl
  have hr : List.range' (0 + 1) (2 - (0 + 1)) = [1] := rfl
  rw [maxScan, hr, List.foldl_cons, List.foldl_nil]
  simp only [scanStep, h1, to_point_point, dist_mid_wedge3]
  norm_num

/-- C8 (amended): the scan reports an upper bound of all interior
distances; when the maximum is positive, the recorded index is a strictly
interior index achieving it and every interior index to its left has a
strictly smaller distance (a later equal distance never replaces the
record-holder); when no interior distance is positive the recorded index
stays `start_index`. -/
theorem c8_leftmost_tie_breaking (v : List T) (line : Line) (s e : Nat) :
    (∀ i, s < i → i < e → distOf v line i ≤ (maxScan v line s e).1) ∧
    (0 < (maxScan v line s e).1 →
      s < (maxScan v line s e).2 ∧ (maxScan v line s e).2 < e ∧
      distOf v line (maxScan v line s e).2 = (maxScan v line s e).1 ∧
      (∀ i, s < i → i < (maxScan v line s e).2 →
        distOf v line i < (maxScan v line s e).1)) ∧
    ((maxScan v line s e).1 = 0 → (maxScan v line s e).2 = s) := by
  obtain ⟨_, hbound, hcase, hleft⟩ := maxScan_spec v line s e
  refine ⟨hbound, ?_, ?_⟩
  · intro hpos
    rcases hcase with h | ⟨hi1, hi2, hd, _⟩
    · rw [h] at hpos
      exact absurd hpos (by norm_num)
    · exact ⟨hi1, hi2, hd, fun i h1 h2 =>
        hleft i h1 (lt_trans h2 hi2) h2⟩
  · intro hzero
    rcases hcase with h | ⟨_, _, _, hpos⟩
    · rw [h]
    · rw [hzero] at hpos
      exact absurd hpos (by norm_num)

/-- C8 (counterexample): on the flat range `(0, 2)` of three collinear
points the maximum interior distance is `0`, attained at the interior
index `1`, yet the recorded index is `0 = start_index`, which is not an
interior index at all — so the recorded index is not "the smallest
interior index achieving the maximum". -/
theorem c8_counterexample :
    (maxScan collinear3 (((0 : ℝ), (0 : ℝ)), ((2 : ℝ), (0 : ℝ))) 0 2).2 = 0 ∧
    ¬ 0 < (maxScan collinear3 (((0 : ℝ), (0 : ℝ)), ((2 : ℝ), (0 : ℝ))) 0 2).2 ∧
    distOf collinear3 (((0 : ℝ), (0 : ℝ)), ((2 : ℝ), (0 : ℝ))) 1 =
      (maxScan collinear3 (((0 : ℝ), (0 : ℝ)), ((2 : ℝ), (0 : ℝ))) 0 2).1 := by
  have h1 : collinear3[1]? = some ((1 : ℝ), (0 : ℝ)) := rfl
  rw [scan_collinear3]
  refine ⟨rfl, by norm_num, ?_⟩
  simp only [distOf, h1, to_point_point, dist_mid_collinear3]

/-- C10: under a non-negative tolerance, a range `(s, e)` whose maximum
deviation exceeds the tolerance is split at a strictly interior index:
the loop pushes `(s, max_index)` and `(max_index, e)` with
`s < max_index < e`, and both pushed ranges are strictly smaller than the
popped one. -/
theorem c10_split_strictly_interior (v : List T) (epsilon : ℝ)
    (heps : 0 ≤ epsilon) (fuel s e : Nat) (rest : List (Nat × Nat))
    (last : Int) (result : List T) (vs ve : T)
    (hs : v[s]? = some vs) (he : v[e]? = some ve)
    (hgt : (maxScan v (HasPoint.to_point vs, HasPoint.to_point ve) s e).1 >
      epsilon) :
    rdpLoop v epsilon (fuel + 1) ((s, e) :: rest) last result =
      rdpLoop v epsilon fuel
        ((s, (maxScan v (HasPoint.to_point vs, HasPoint.to_point ve) s e).2) ::
          ((maxScan v (HasPoint.to_point vs, HasPoint.to_point ve) s e).2, e) ::
          rest) last result ∧
    s < (maxScan v (HasPoint.to_point vs, HasPoint.to_point ve) s e).2 ∧
    (maxScan v (HasPoint.to_point vs, HasPoint.to_point ve) s e).2 < e ∧
    (maxScan v (HasPoint.to_point vs, HasPoint.to_point ve) s e).2 - s < e - s ∧
    e - (maxScan v (HasPoint.to_point vs, HasPoint.to_point ve) s e).2 < e - s := by
  obtain ⟨h1, h2⟩ := maxScan_split_interior v _ s e epsilon heps hgt
  exact ⟨rdpLoop_split v epsilon fuel s e rest last result vs ve hs he hgt,
    h1, h2, by omega, by omega⟩

theorem c10_split_strictly_interior_witness :
    (0 : ℝ) ≤ 0 ∧
    wedge3[0]? = some ((0 : ℝ), (0 : ℝ)) ∧
    wedge3[2]? = some ((2 : ℝ), (0 : ℝ)) ∧
    (0 < (maxScan wedge3 (HasPoint.to_point ((0 : ℝ), (0 : ℝ)),
      HasPoint.to_point ((2 : ℝ), (0 : ℝ))) 0 2).2 ∧
      (maxScan wedge3 (HasPoint.to_point ((0 : ℝ), (0 : ℝ)),
        HasPoint.to_point ((2 : ℝ), (0 : ℝ))) 0 2).2 < 2) := by
  have hgt : (maxScan wedge3 (HasPoint.to_point ((0 : ℝ), (0 : ℝ)),
      HasPoint.to_point ((2 : ℝ), (0 : ℝ))) 0 2).1 > 0 := by
    simp only [to_point_point]
    rw [scan_wedge3]
    norm_num
  have h := c10_split_strictly_interior wedge3 0 (le_refl 0) 3 0 2 [] (-1) []
    ((0 : ℝ), (0 : ℝ)) ((2 : ℝ), (0 : ℝ)) rfl rfl hgt
  exact ⟨le_refl 0, rfl, rfl, h.2.1, h.2.2.1⟩

/-- Example input: the closed square loop of the spec's literal scenario. -/
noncomputable def squareLoop : List Point :=
  [((0 : ℝ), (0 : ℝ)), ((1 : ℝ), (0 : ℝ)), ((2 : ℝ), (0 : ℝ)),
   ((2 : ℝ), (1 : ℝ)), ((2 : ℝ), (2 : ℝ)), ((1 : ℝ), (2 : ℝ)),
   ((0 : ℝ), (2 : ℝ)), ((0 : ℝ), (1 : ℝ)), ((0 : ℝ), (0 : ℝ))]

theorem dpp_eval (x y : Point) :
    distance_point_to_point x y =
      Real.sqrt ((y.1 - x.1) * (y.1 - x.1) + (y.2 - x.2) * (y.2 - x.2)) := by
  rw [distance_point_to_point]
  exact abs_of_nonneg (Real.sqrt_nonneg _)

theorem dpl_eval (p : Point) (l : Line) (h : ¬ l.1 = l.2) :
    distance_point_to_line p l =
      |(l.1.2 - l.2.2) * p.1 + (l.2.1 - l.1.1) * p.2 +
        (l.1.1 * l.2.2 - l.2.1 * l.1.2)| /
        Real.sqrt ((l.1.2 - l.2.2) * (l.1.2 - l.2.2) +
          (l.2.1 - l.1.1) * (l.2.1 - l.1.1)) := by
  rw [distance_point_to_line, if_neg h]
  simp only
  rw [abs_div, abs_of_nonneg (Real.sqrt_nonneg _)]

theorem sqrt_eight_pos : (0 : ℝ) < Real.sqrt 8 :=
  Real.sqrt_pos.2 (by norm_num)

theorem sqrt_eight_gt_one : (1 : ℝ) < Real.sqrt 8 :=
  (Real.lt_sqrt (by norm_num)).2 (by norm_num)

theorem sqrt_eight_lt_four : Real.sqrt 8 < 4 :=
  (Real.sqrt_lt' (by norm_num)).2 (by norm_num)

theorem two_lt_sqrt_five : (2 : ℝ) < Real.sqrt 5 :=
  (Real.lt_sqrt (by norm_num)).2 (by norm_num)

theorem sqrt_five_lt_sqrt_eight : Real.sqrt 5 < Real.sqrt 8 :=
  Real.sqrt_lt_sqrt (by norm_num) (by norm_num)

theorem two_le_sqrt_eight : (2 : ℝ) ≤ Real.sqrt 8 := by
  rw [← sqrt_four]
  exact Real.sqrt_le_sqrt (by norm_num)

/-- The scan of the full range `(0, 8)` of the square loop: the line is
degenerate (the loop is closed), the farthest point is the opposite
corner `(2, 2)` at index 4, distance `√8`. -/
theorem scan_sq_08 :
    maxScan squareLoop (((0 : ℝ), (0 : ℝ)), ((0 : ℝ), (0 : ℝ))) 0 8 =
      (Real.sqrt 8, 4) := by
  have d1 : distance_point_to_line ((1 : ℝ), (0 : ℝ))
      (((0 : ℝ), (0 : ℝ)), ((0 : ℝ), (0 : ℝ))) = 1 := by
    rw [distance_point_to_line, if_pos rfl, dpp_eval]
    norm_num [Real.sqrt_one]
  have d2 : distance_point_to_line ((2 : ℝ), (0 : ℝ))
      (((0 : ℝ), (0 : ℝ)), ((0 : ℝ), (0 : ℝ))) = 2 := by
    rw [distance_point_to_line, if_pos rfl, dpp_eval]
    norm_num [sqrt_four]
  have d3 : distance_point_to_line ((2 : ℝ), (1 : ℝ))
      (((0 : ℝ), (0 : ℝ)), ((0 : ℝ), (0 : ℝ))) = Real.sqrt 5 := by
    rw [distance_point_to_line, if_pos rfl, dpp_eval]
    norm_num
  have d4 : distance_point_to_line ((2 : ℝ), (2 : ℝ))
      (((0 : ℝ), (0 : ℝ)), ((0 : ℝ), (0 : ℝ))) = Real.sqrt 8 := by
    rw [distance_point_to_line, if_pos rfl, dpp_eval]
    norm_num
  have d5 : distance_point_to_line ((1 : ℝ), (2 : ℝ))
      (((0 : ℝ), (0 : ℝ)), ((0 : ℝ), (0 : ℝ))) = Real.sqrt 5 := by
    rw [distance_point_to_line, if_pos rfl, dpp_eval]
    norm_num
  have d6 : distance_point_to_line ((0 : ℝ), (2 : ℝ))
      (((0 : ℝ), (0 : ℝ)), ((0 : ℝ), (0 : ℝ))) = 2 := by
    rw [distance_point_to_line, if_pos rfl, dpp_eval]
    norm_num [sqrt_four]
  have d7 : distance_point_to_line ((0 : ℝ), (1 : ℝ))
      (((0 : ℝ), (0 : ℝ)), ((0 : ℝ), (0 : ℝ))) = 1 := by
    rw [distance_point_to_line, if_pos rfl, dpp_eval]
    norm_num [Real.sqrt_one]
  have hr : List.range' (0 + 1) (8 - (0 + 1)) = [1, 2, 3, 4, 5, 6, 7] := rfl
  have s1 : scanStep squareLoop (((0 : ℝ), (0 : ℝ)), ((0 : ℝ), (0 : ℝ)))
      ((0 : ℝ), 0) 1 = (1, 1) := by
    simp only [scanStep, show squareLoop[1]? = some ((1 : ℝ), (0 : ℝ)) from rfl,
      to_point_point, d1]
    norm_num
  have s2 : scanStep squareLoop (((0 : ℝ), (0 : ℝ)), ((0 : ℝ), (0 : ℝ)))
      ((1 : ℝ), 1) 2 = (2, 2) := by
    simp only [scanStep, show squareLoop[2]? = some ((2 : ℝ), (0 : ℝ)) from rfl,
      to_point_point, d2]
    norm_num
  have s3 : scanStep squareLoop (((0 : ℝ), (0 : ℝ)), ((0 : ℝ), (0 : ℝ)))
      ((2 : ℝ), 2) 3 = (Real.sqrt 5, 3) := by
    simp only [scanStep, show squareLoop[3]? = some ((2 : ℝ), (1 : ℝ)) from rfl,
      to_point_point, d3]
    rw [if_pos]
    show (2 : ℝ) < Real.sqrt 5
    exact two_lt_sqrt_five
  have s4 : scanStep squareLoop (((0 : ℝ), (0 : ℝ)), ((0 : ℝ), (0 : ℝ)))
      (Real.sqrt 5, 3) 4 = (Real.sqrt 8, 4) := by
    simp only [scanStep, show squareLoop[4]? = some ((2 : ℝ), (2 : ℝ)) from rfl,
      to_point_point, d4]
    rw [if_pos]
    show Real.sqrt 5 < Real.sqrt 8
    exact sqrt_five_lt_sqrt_eight
  have s5 : scanStep squareLoop (((0 : ℝ), (0 : ℝ)), ((0 : ℝ), (0 : ℝ)))
      (Real.sqrt 8, 4) 5 = (Real.sqrt 8, 4) := by
    simp only [scanStep, show squareLoop[5]? = some ((1 : ℝ), (2 : ℝ)) from rfl,
      to_point_point, d5]
    rw [if_neg]
    show ¬ Real.sqrt 8 < Real.sqrt 5
    exact not_lt.2 (le_of_lt sqrt_five_lt_sqrt_eight)
  have s6 : scanStep squareLoop (((0 : ℝ), (0 : ℝ)), ((0 : ℝ), (0 : ℝ)))
      (Real.sqrt 8, 4) 6 = (Real.sqrt 8, 4) := by
    simp only [scanStep, show squareLoop[6]? = some ((0 : ℝ), (2 : ℝ)) from rfl,
      to_point_point, d6]
    rw [if_neg]
    show ¬ Real.sqrt 8 < 2
    exact not_lt.2 two_le_sqrt_eight
  have s7 : scanStep squareLoop (((0 : ℝ), (0 : ℝ)), ((0 : ℝ), (0 : ℝ)))
      (Real.sqrt 8, 4) 7 = (Real.sqrt 8, 4) := by
    simp only [scanStep, show squareLoop[7]? = some ((0 : ℝ), (1 : ℝ)) from rfl,
      to_point_point, d7]
    rw [if_neg]
    show ¬ Real.sqrt 8 < 1
    exact not_lt.2 (le_of_lt sqrt_eight_gt_one)
  rw [maxScan, hr, List.foldl_cons, s1, List.foldl_cons, s2, List.foldl_cons,
    s3, List.foldl_cons, s4, List.foldl_cons, s5, List.foldl_cons, s6,
    List.foldl_cons, s7, List.foldl_nil]

theorem scan_sq_04 :
    maxScan squareLoop (((0 : ℝ), (0 : ℝ)), ((2 : ℝ), (2 : ℝ))) 0 4 =
      (4 / Real.sqrt 8, 2) := by
  have d1 : distance_point_to_line ((1 : ℝ), (0 : ℝ))
      (((0 : ℝ), (0 : ℝ)), ((2 : ℝ), (2 : ℝ))) = 2 / Real.sqrt 8 := by
    rw [dpl_eval _ _ (by norm_num [Prod.ext_iff])]
    norm_num
  have d2 : distance_point_to_line ((2 : ℝ), (0 : ℝ))
      (((0 : ℝ), (0 : ℝ)), ((2 : ℝ), (2 : ℝ))) = 4 / Real.sqrt 8 := by
    rw [dpl_eval _ _ (by norm_num [Prod.ext_iff])]
    norm_num
  have d3 : distance_point_to_line ((2 : ℝ), (1 : ℝ))
      (((0 : ℝ), (0 : ℝ)), ((2 : ℝ), (2 : ℝ))) = 2 / Real.sqrt 8 := by
    rw [dpl_eval _ _ (by norm_num [Prod.ext_iff])]
    norm_num
  have hr : List.range' (0 + 1) (4 - (0 + 1)) = [1, 2, 3] := rfl
  have s1 : scanStep squareLoop (((0 : ℝ), (0 : ℝ)), ((2 : ℝ), (2 : ℝ)))
      ((0 : ℝ), 0) 1 = (2 / Real.sqrt 8, 1) := by
    simp only [scanStep, show squareLoop[1]? = some ((1 : ℝ), (0 : ℝ)) from rfl,
      to_point_point, d1]
    rw [if_pos]
    show (0 : ℝ) < 2 / Real.sqrt 8
    exact div_pos (by norm_num) sqrt_eight_pos
  have s2 : scanStep squareLoop (((0 : ℝ), (0 : ℝ)), ((2 : ℝ), (2 : ℝ)))
      (2 / Real.sqrt 8, 1) 2 = (4 / Real.sqrt 8, 2) := by
    simp only [scanStep, show squareLoop[2]? = some ((2 : ℝ), (0 : ℝ)) from rfl,
      to_point_point, d2]
    rw [if_pos]
    show 2 / Real.sqrt 8 < 4 / Real.sqrt 8
    exact (div_lt_div_right sqrt_eight_pos).2 (by norm_num)
  have s3 : scanStep squareLoop (((0 : ℝ), (0 : ℝ)), ((2 : ℝ), (2 : ℝ)))
      (4 / Real.sqrt 8, 2) 3 = (4 / Real.sqrt 8, 2) := by
    simp only [scanStep, show squareLoop[3]? = some ((2 : ℝ), (1 : ℝ)) from rfl,
      to_point_point, d3]
    rw [if_neg]
    show ¬ 4 / Real.sqrt 8 < 2 / Real.sqrt 8
    exact not_lt.2 (le_of_lt ((div_lt_div_right sqrt_eight_pos).2 (by norm_num)))
  rw [maxScan, hr, List.foldl_cons, s1, List.foldl_cons, s2, List.foldl_cons,
    s3, List.foldl_nil]

theorem scan_sq_02 :
    maxScan squareLoop (((0 : ℝ), (0 : ℝ)), ((2 : ℝ), (0 : ℝ))) 0 2 = (0, 0) := by
  have hr : List.range' (0 + 1) (2 - (0 + 1)) = [1] := rfl
  have s1 : scanStep squareLoop (((0 : ℝ), (0 : ℝ)), ((2 : ℝ), (0 : ℝ)))
      ((0 : ℝ), 0) 1 = (0, 0) := by
    simp only [scanStep, show squareLoop[1]? = some ((1 : ℝ), (0 : ℝ)) from rfl,
      to_point_point, dist_mid_collinear3]
    norm_num
  rw [maxScan, hr, List.foldl_cons, s1, List.foldl_nil]

theorem scan_sq_24 :
    maxScan squareLoop (((2 : ℝ), (0 : ℝ)), ((2 : ℝ), (2 : ℝ))) 2 4 = (0, 2) := by
  have d3 : distance_point_to_line ((2 : ℝ), (1 : ℝ))
      (((2 : ℝ), (0 : ℝ)), ((2 : ℝ), (2 : ℝ))) = 0 := by
    rw [dpl_eval _ _ (by norm_num [Prod.ext_iff])]
    norm_num
  have hr : List.range' (2 + 1) (4 - (2 + 1)) = [3] := rfl
  have s3 : scanStep squareLoop (((2 : ℝ), (0 : ℝ)), ((2 : ℝ), (2 : ℝ)))
      ((0 : ℝ), 2) 3 = (0, 2) := by
    simp only [scanStep, show squareLoop[3]? = some ((2 : ℝ), (1 : ℝ)) from rfl,
      to_point_point, d3]
    norm_num
  rw [maxScan, hr, List.foldl_cons, s3, List.foldl_nil]

theorem scan_sq_48 :
    maxScan squareLoop (((2 : ℝ), (2 : ℝ)), ((0 : ℝ), (0 : ℝ))) 4 8 =
      (4 / Real.sqrt 8, 6) := by
  have d5 : distance_point_to_line ((1 : ℝ), (2 : ℝ))
      (((2 : ℝ), (2 : ℝ)), ((0 : ℝ), (0 : ℝ))) = 2 / Real.sqrt 8 := by
    rw [dpl_eval _ _ (by norm_num [Prod.ext_iff])]
    norm_num
  have d6 : distance_point_to_line ((0 : ℝ), (2 : ℝ))
      (((2 : ℝ), (2 : ℝ)), ((0 : ℝ), (0 : ℝ))) = 4 / Real.sqrt 8 := by
    rw [dpl_eval _ _ (by norm_num [Prod.ext_iff])]
    norm_num
  have d7 : distance_point_to_line ((0 : ℝ), (1 : ℝ))
      (((2 : ℝ), (2 : ℝ)), ((0 : ℝ), (0 : ℝ))) = 2 / Real.sqrt 8 := by
    rw [dpl_eval _ _ (by norm_num [Prod.ext_iff])]
    norm_num
  have hr : List.range' (4 + 1) (8 - (4 + 1)) = [5, 6, 7] := rfl
  have s5 : scanStep squareLoop (((2 : ℝ), (2 : ℝ)), ((0 : ℝ), (0 : ℝ)))
      ((0 : ℝ), 4) 5 = (2 / Real.sqrt 8, 5) := by
    simp only [scanStep, show squareLoop[5]? = some ((1 : ℝ), (2 : ℝ)) from rfl,
      to_point_point, d5]
    rw [if_pos]
    show (0 : ℝ) < 2 / Real.sqrt 8
    exact div_pos (by norm_num) sqrt_eight_pos
  have s6 : scanStep squareLoop (((2 : ℝ), (2 : ℝ)), ((0 : ℝ), (0 : ℝ)))
      (2 / Real.sqrt 8, 5) 6 = (4 / Real.sqrt 8, 6) := by
    simp only [scanStep, show squareLoop[6]? = some ((0 : ℝ), (2 : ℝ)) from rfl,
      to_point_point, d6]
    rw [if_pos]
    show 2 / Real.sqrt 8 < 4 / Real.sqrt 8
    exact (div_lt_div_right sqrt_eight_pos).2 (by norm_num)
  have s7 : scanStep squareLoop (((2 : ℝ), (2 : ℝ)), ((0 : ℝ), (0 : ℝ)))
      (4 / Real.sqrt 8, 6) 7 = (4 / Real.sqrt 8, 6) := by
    simp only [scanStep, show squareLoop[7]? = some ((0 : ℝ), (1 : ℝ)) from rfl,
      to_point_point, d7]
    rw [if_neg]
    show ¬ 4 / Real.sqrt 8 < 2 / Real.sqrt 8
    exact not_lt.2 (le_of_lt ((div_lt_div_right sqrt_eight_pos).2 (by norm_num)))
  rw [maxScan, hr, List.foldl_cons, s5, List.foldl_cons, s6, List.foldl_cons,
    s7, List.foldl_nil]

theorem scan_sq_46 :
    maxScan squareLoop (((2 : ℝ), (2 : ℝ)), ((0 : ℝ), (2 : ℝ))) 4 6 = (0, 4) := by
  have d5 : distance_point_to_line ((1 : ℝ), (2 : ℝ))
      (((2 : ℝ), (2 : ℝ)), ((0 : ℝ), (2 : ℝ))) = 0 := by
    rw [dpl_eval _ _ (by norm_num [Prod.ext_iff])]
    norm_num
  have hr : List.range' (4 + 1) (6 - (4 + 1)) = [5] := rfl
  have s5 : scanStep squareLoop (((2 : ℝ), (2 : ℝ)), ((0 : ℝ), (2 : ℝ)))
      ((0 : ℝ), 4) 5 = (0, 4) := by
    simp only [scanStep, show squareLoop[5]? = some ((1 : ℝ), (2 : ℝ)) from rfl,
      to_point_point, d5]
    norm_num
  rw [maxScan, hr, List.foldl_cons, s5, List.foldl_nil]

theorem scan_sq_68 :
    maxScan squareLoop (((0 : ℝ), (2 : ℝ)), ((0 : ℝ), (0 : ℝ))) 6 8 = (0, 6) := by
  have d7 : distance_point_to_line ((0 : ℝ), (1 : ℝ))
      (((0 : ℝ), (2 : ℝ)), ((0 : ℝ), (0 : ℝ))) = 0 := by
    rw [dpl_eval _ _ (by norm_num [Prod.ext_iff])]
    norm_num
  have hr : List.range' (6 + 1) (8 - (6 + 1)) = [7] := rfl
  have s7 : scanStep squareLoop (((0 : ℝ), (2 : ℝ)), ((0 : ℝ), (0 : ℝ)))
      ((0 : ℝ), 6) 7 = (0, 6) := by
    simp only [scanStep, show squareLoop[7]? = some ((0 : ℝ), (1 : ℝ)) from rfl,
      to_point_point, d7]
    norm_num
  rw [maxScan, hr, List.foldl_cons, s7, List.foldl_nil]

/-- C9: the closed square loop with `epsilon = 1` simplifies to the four
corners plus the repeated start/end point, in this exact order, via the
LIFO left-half-first traversal and the duplicate-boundary suppression. -/
theorem c9_square_loop :
    ramer_douglas_peucker squareLoop 1 =
      some [((0 : ℝ), (0 : ℝ)), ((2 : ℝ), (0 : ℝ)), ((2 : ℝ), (2 : ℝ)),
        ((0 : ℝ), (2 : ℝ)), ((0 : ℝ), (0 : ℝ))] := by
  have m08 : maxScan squareLoop
      (HasPoint.to_point (((0 : ℝ), (0 : ℝ)) : Point),
        HasPoint.to_point (((0 : ℝ), (0 : ℝ)) : Point)) 0 8 =
      (Real.sqrt 8, 4) := scan_sq_08
  have m04 : maxScan squareLoop
      (HasPoint.to_point (((0 : ℝ), (0 : ℝ)) : Point),
        HasPoint.to_point (((2 : ℝ), (2 : ℝ)) : Point)) 0 4 =
      (4 / Real.sqrt 8, 2) := scan_sq_04
  have m02 : maxScan squareLoop
      (HasPoint.to_point (((0 : ℝ), (0 : ℝ)) : Point),
        HasPoint.to_point (((2 : ℝ), (0 : ℝ)) : Point)) 0 2 = (0, 0) :=
    scan_sq_02
  have m24 : maxScan squareLoop
      (HasPoint.to_point (((2 : ℝ), (0 : ℝ)) : Point),
        HasPoint.to_point (((2 : ℝ), (2 : ℝ)) : Point)) 2 4 = (0, 2) :=
    scan_sq_24
  have m48 : maxScan squareLoop
      (HasPoint.to_point (((2 : ℝ), (2 : ℝ)) : Point),
        HasPoint.to_point (((0 : ℝ), (0 : ℝ)) : Point)) 4 8 =
      (4 / Real.sqrt 8, 6) := scan_sq_48
  have m46 : maxScan squareLoop
      (HasPoint.to_point (((2 : ℝ), (2 : ℝ)) : Point),
        HasPoint.to_point (((0 : ℝ), (2 : ℝ)) : Point)) 4 6 = (0, 4) :=
    scan_sq_46
  have m68 : maxScan squareLoop
      (HasPoint.to_point (((0 : ℝ), (2 : ℝ)) : Point),
        HasPoint.to_point (((0 : ℝ), (0 : ℝ)) : Point)) 6 8 = (0, 6) :=
    scan_sq_68
  have hdiv : (1 : ℝ) < 4 / Real.sqrt 8 :=
    (one_lt_div sqrt_eight_pos).2 sqrt_eight_lt_four
  rw [ramer_douglas_peucker, if_neg (by norm_num [squareLoop])]
  show rdpLoop squareLoop 1 (17 + 1) [(0, 8)] (-1) [] = _
  rw [rdpLoop_split squareLoop 1 17 0 8 [] (-1) [] ((0 : ℝ), (0 : ℝ))
    ((0 : ℝ), (0 : ℝ)) rfl rfl
    (by rw [m08]; exact sqrt_eight_gt_one), m08]
  show rdpLoop squareLoop 1 (16 + 1) [(0, 4), (4, 8)] (-1) [] = _
  rw [rdpLoop_split squareLoop 1 16 0 4 [(4, 8)] (-1) [] ((0 : ℝ), (0 : ℝ))
    ((2 : ℝ), (2 : ℝ)) rfl rfl
    (by rw [m04]; exact hdiv), m04]
  show rdpLoop squareLoop 1 (15 + 1) [(0, 2), (2, 4), (4, 8)] (-1) [] = _
  rw [rdpLoop_collapse squareLoop 1 15 0 2 [(2, 4), (4, 8)] (-1) []
    ((0 : ℝ), (0 : ℝ)) ((2 : ℝ), (0 : ℝ)) rfl rfl
    (by rw [m02]; norm_num)]
  show rdpLoop squareLoop 1 (14 + 1) [(2, 4), (4, 8)] 2
    [((0 : ℝ), (0 : ℝ)), ((2 : ℝ), (0 : ℝ))] = _
  rw [rdpLoop_collapse squareLoop 1 14 2 4 [(4, 8)] 2
    [((0 : ℝ), (0 : ℝ)), ((2 : ℝ), (0 : ℝ))] ((2 : ℝ), (0 : ℝ))
    ((2 : ℝ), (2 : ℝ)) rfl rfl
    (by rw [m24]; norm_num)]
  show rdpLoop squareLoop 1 (13 + 1) [(4, 8)] 4
    [((0 : ℝ), (0 : ℝ)), ((2 : ℝ), (0 : ℝ)), ((2 : ℝ), (2 : ℝ))] = _
  rw [rdpLoop_split squareLoop 1 13 4 8 [] 4
    [((0 : ℝ), (0 : ℝ)), ((2 : ℝ), (0 : ℝ)), ((2 : ℝ), (2 : ℝ))]
    ((2 : ℝ), (2 : ℝ)) ((0 : ℝ), (0 : ℝ)) rfl rfl
    (by rw [m48]; exact hdiv), m48]
  show rdpLoop squareLoop 1 (12 + 1) [(4, 6), (6, 8)] 4
    [((0 : ℝ), (0 : ℝ)), ((2 : ℝ), (0 : ℝ)), ((2 : ℝ), (2 : ℝ))] = _
  rw [rdpLoop_collapse squareLoop 1 12 4 6 [(6, 8)] 4
    [((0 : ℝ), (0 : ℝ)), ((2 : ℝ), (0 : ℝ)), ((2 : ℝ), (2 : ℝ))]
    ((2 : ℝ), (2 : ℝ)) ((0 : ℝ), (2 : ℝ)) rfl rfl
    (by rw [m46]; norm_num)]
  show rdpLoop squareLoop 1 (11 + 1) [(6, 8)] 6
    [((0 : ℝ), (0 : ℝ)), ((2 : ℝ), (0 : ℝ)), ((2 : ℝ), (2 : ℝ)),
      ((0 : ℝ), (2 : ℝ))] = _
  rw [rdpLoop_collapse squareLoop 1 11 6 8 [] 6
    [((0 : ℝ), (0 : ℝ)), ((2 : ℝ), (0 : ℝ)), ((2 : ℝ), (2 : ℝ)),
      ((0 : ℝ), (2 : ℝ))] ((0 : ℝ), (2 : ℝ)) ((0 : ℝ), (0 : ℝ)) rfl rfl
    (by rw [m68]; norm_num)]
  show rdpLoop squareLoop 1 11 [] 8
    [((0 : ℝ), (0 : ℝ)), ((2 : ℝ), (0 : ℝ)), ((2 : ℝ), (2 : ℝ)),
      ((0 : ℝ), (2 : ℝ)), ((0 : ℝ), (0 : ℝ))] = _
  rw [rdpLoop_nil]

end RDP
